import Mathlib

/-!
Verification of the pending-migration detector in
scripts/check_pending_migrations.py.

Python strings are modelled as lists of characters (PyStr).  Each
definition below mirrors one Python function of the source file:
normalize_name, iter_local_files, token_candidates, collect_applied_stems,
write_pending_output, and the reconciliation performed by main.  The JSON
payload handed to collect_applied_stems is modelled by the inductive type
J, and the json.loads call applied to embedded string payloads is modelled
by an executable JSON parser over character lists.
-/

/-- Python strings as lists of characters. -/
abbrev PyStr := List Char

/-- The ASCII whitespace characters stripped by str.strip() (the source
never strips non-ASCII whitespace in practice; the Unicode extras of
Python are out of scope of the data handled here). -/
def isPySpace (c : Char) : Bool :=
  c == ' ' || c == '\t' || c == '\n' || c == '\r' || c == '\x0b' || c == '\x0c'

/-- Python value.strip(): drop leading and trailing whitespace. -/
def pyStrip (s : PyStr) : PyStr :=
  ((s.dropWhile isPySpace).reverse.dropWhile isPySpace).reverse

/-- Helper of pySplit: accumulates the current piece in reverse. -/
def splitOnCharAux (sep : Char) : List Char → List Char → List PyStr
  | [], acc => [acc.reverse]
  | c :: rest, acc =>
    if c == sep then acc.reverse :: splitOnCharAux sep rest []
    else splitOnCharAux sep rest (c :: acc)

/-- Python s.split(sep) for a one-character separator: pieces between the
separators, empty pieces kept, and the empty string splits to [""]. -/
def pySplit (sep : Char) (s : PyStr) : List PyStr :=
  splitOnCharAux sep s []

/-- The suffix of s after its last '/' (s itself when there is none).
This is the phrasing the specification uses for the path-segment step of
normalize_name; the lemma pySplit_getLastD identifies it with the code's
split("/")[-1]. -/
def afterLastSlash (s : PyStr) : PyStr :=
  (s.reverse.takeWhile (fun c => !(c == '/'))).reverse

/-- Source normalize_name: strip whitespace, take the last '/'-separated
segment, then remove one trailing ".sql" when present. -/
def normalize_name (value : PyStr) : PyStr :=
  let token := (pySplit '/' (pyStrip value)).getLastD []
  if (".sql".data).isSuffixOf token then token.take (token.length - 4) else token

/-- The normalization the specification describes for C3, read literally:
substring after the last '/', then strip one trailing ".sql" — with no
whitespace stripping. -/
def specNormalizeNoTrim (value : PyStr) : PyStr :=
  if (".sql".data).isSuffixOf (afterLastSlash value) then
    (afterLastSlash value).take ((afterLastSlash value).length - 4)
  else afterLastSlash value

/-- The amended normalization: trim whitespace at both ends first, then
take the substring after the last '/', then strip one trailing ".sql". -/
def specNormalizeTrimmed (value : PyStr) : PyStr :=
  if (".sql".data).isSuffixOf (afterLastSlash (pyStrip value)) then
    (afterLastSlash (pyStrip value)).take ((afterLastSlash (pyStrip value)).length - 4)
  else afterLastSlash (pyStrip value)

/-- Model of MIGRATION_FILE_RE = re.compile(r"^[0-9].*\.sql$") used with
re.match: the name starts with an ASCII digit and ends in ".sql", where
'.' does not cross a newline and '$' also matches just before one final
trailing newline. -/
def matchesMigrationRe (s : PyStr) : Bool :=
  match s with
  | [] => false
  | c :: _ =>
    c.isDigit &&
    ((!(s.contains '\n') && (".sql".data).isSuffixOf s) ||
     (!(s.dropLast.contains '\n') && (".sql\n".data).isSuffixOf s))

-- Basic sanity checks of the string model.
example : normalize_name "supabase/migrations/20240101_init.sql".data = "20240101_init".data := by decide
example : normalize_name "  20240101_init.sql  ".data = "20240101_init".data := by decide
example : normalize_name "a/".data = [] := by decide
example : normalize_name ".sql".data = [] := by decide
example : matchesMigrationRe "20240101_init.sql".data = true := by decide
example : matchesMigrationRe "readme.md".data = false := by decide
example : matchesMigrationRe ".sql".data = false := by decide

/-! Lemmas connecting split("/")[-1] with the suffix after the last '/'. -/

theorem takeWhile_of_all {p : Char → Bool} {l : List Char}
    (h : ∀ c ∈ l, p c = true) : l.takeWhile p = l := by
  induction l with
  | nil => rfl
  | cons c l ih =>
    simp only [List.takeWhile_cons, h c (by simp)]
    simp [ih (fun x hx => h x (by simp [hx]))]

theorem takeWhile_append_of_exists {p : Char → Bool} {l₁ : List Char} (l₂ : List Char)
    (h : ∃ x ∈ l₁, p x = false) :
    (l₁ ++ l₂).takeWhile p = l₁.takeWhile p := by
  induction l₁ with
  | nil => simp at h
  | cons c l ih =>
    by_cases hc : p c = true
    · simp only [List.cons_append, List.takeWhile_cons, hc]
      obtain ⟨x, hx, hpx⟩ := h
      rcases List.mem_cons.mp hx with rfl | hx
      · rw [hc] at hpx; cases hpx
      · rw [ih ⟨x, hx, hpx⟩]
    · rw [Bool.not_eq_true] at hc
      simp [List.takeWhile_cons, hc]

theorem takeWhile_append_stop {p : Char → Bool} {c : Char} (l₁ l₂ : List Char)
    (hc : p c = false) :
    (l₁ ++ c :: l₂).takeWhile p = l₁.takeWhile p := by
  induction l₁ with
  | nil => simp [List.takeWhile_cons, hc]
  | cons a l ih =>
    by_cases ha : p a = true
    · simp only [List.cons_append, List.takeWhile_cons, ha]
      simp [ih]
    · rw [Bool.not_eq_true] at ha
      simp [List.takeWhile_cons, ha]

theorem afterLastSlash_slash (rest : PyStr) :
    afterLastSlash ('/' :: rest) = afterLastSlash rest := by
  unfold afterLastSlash
  rw [List.reverse_cons, takeWhile_append_stop rest.reverse [] (by decide)]

theorem afterLastSlash_cons (c : Char) (rest : PyStr) (hc : c ≠ '/') :
    afterLastSlash (c :: rest) =
      if '/' ∈ rest then afterLastSlash rest else c :: rest := by
  unfold afterLastSlash
  by_cases h : '/' ∈ rest
  · rw [if_pos h, List.reverse_cons,
      takeWhile_append_of_exists [c] ⟨'/', List.mem_reverse.mpr h, by decide⟩]
  · rw [if_neg h, List.reverse_cons]
    have hall : ∀ x ∈ rest.reverse ++ [c], (!(x == '/')) = true := by
      intro x hx
      rcases List.mem_append.mp hx with hx | hx
      · simp only [Bool.not_eq_true', beq_eq_false_iff_ne]
        rintro rfl; exact h (List.mem_reverse.mp hx)
      · rcases List.mem_singleton.mp hx with rfl
        simp only [Bool.not_eq_true', beq_eq_false_iff_ne]
        exact hc
    rw [takeWhile_of_all hall, List.reverse_append, List.reverse_reverse,
      List.reverse_cons]
    rfl

theorem afterLastSlash_of_not_mem {s : PyStr} (h : '/' ∉ s) :
    afterLastSlash s = s := by
  unfold afterLastSlash
  have hall : ∀ x ∈ s.reverse, (!(x == '/')) = true := by
    intro x hx
    simp only [Bool.not_eq_true', beq_eq_false_iff_ne]
    rintro rfl; exact h (List.mem_reverse.mp hx)
  rw [takeWhile_of_all hall, List.reverse_reverse]

theorem not_mem_afterLastSlash (s : PyStr) : '/' ∉ afterLastSlash s := by
  intro h
  have := List.mem_takeWhile_imp (List.mem_reverse.mp h)
  simp at this

theorem splitOnCharAux_getLastD (s : PyStr) :
    ∀ acc d, (splitOnCharAux '/' s acc).getLastD d =
      if '/' ∈ s then afterLastSlash s else acc.reverse ++ s := by
  induction s with
  | nil => intro acc d; simp [splitOnCharAux]
  | cons c rest ih =>
    intro acc d
    by_cases hc : c = '/'
    · subst hc
      simp only [splitOnCharAux, beq_self_eq_true, if_true, List.getLastD_cons]
      rw [ih [] acc.reverse, afterLastSlash_slash]
      by_cases h : '/' ∈ rest
      · simp [h, List.mem_cons]
      · simp [h, List.mem_cons, afterLastSlash_of_not_mem h]
    · have hbeq : (c == '/') = false := beq_eq_false_iff_ne.mpr hc
      simp only [splitOnCharAux, hbeq, Bool.false_eq_true, if_false]
      rw [ih (c :: acc) d, afterLastSlash_cons c rest hc]
      by_cases h : '/' ∈ rest
      · simp [h, List.mem_cons, hc]
      · have : '/' ∉ c :: rest := by
          intro hx; rcases List.mem_cons.mp hx with hx | hx
          · exact hc hx.symm
          · exact h hx
        simp [h, this]

theorem pySplit_getLastD (s : PyStr) :
    (pySplit '/' s).getLastD [] = afterLastSlash s := by
  rw [pySplit, splitOnCharAux_getLastD s [] []]
  by_cases h : '/' ∈ s
  · rw [if_pos h]
  · rw [if_neg h, afterLastSlash_of_not_mem h]; rfl

/-- The code's normalize_name agrees everywhere with the compositional
description: trim whitespace, take the part after the last '/', strip one
trailing ".sql". -/
theorem normalize_name_eq_trimmed (x : PyStr) :
    normalize_name x = specNormalizeTrimmed x := by
  unfold normalize_name specNormalizeTrimmed
  rw [pySplit_getLastD]

theorem not_mem_normalize_name (x : PyStr) : '/' ∉ normalize_name x := by
  rw [normalize_name_eq_trimmed]
  unfold specNormalizeTrimmed
  intro h
  apply not_mem_afterLastSlash (pyStrip x)
  split at h
  · exact List.take_subset _ _ h
  · exact h

theorem normalize_name_idem_of (x : PyStr)
    (h1 : pyStrip (normalize_name x) = normalize_name x)
    (h2 : (".sql".data).isSuffixOf (normalize_name x) = false) :
    normalize_name (normalize_name x) = normalize_name x := by
  conv_lhs => rw [normalize_name_eq_trimmed]
  unfold specNormalizeTrimmed
  rw [h1, afterLastSlash_of_not_mem (not_mem_normalize_name x), h2]
  simp

/-- C2 (corrected, counterexample): normalize_stem is not idempotent as
claimed for every string: a name ending in two ".sql" suffixes loses one
per application. -/
theorem normalize_name_idempotent_counterexample :
    normalize_name (normalize_name "20240101_init.sql.sql".data) ≠
      normalize_name "20240101_init.sql.sql".data := by decide

/-- C2 (corrected, amended): normalize_stem is idempotent on every string
whose normalization is already whitespace-trimmed and does not itself end
in ".sql".  It is not idempotent in general, not even on every name
matching the migration pattern: 20240101_init.sql.sql matches
MIGRATION_FILE_RE and normalizes to 20240101_init.sql, which a second
application shortens again. -/
theorem normalize_name_idempotent_amended (x : PyStr)
    (h1 : pyStrip (normalize_name x) = normalize_name x)
    (h2 : (".sql".data).isSuffixOf (normalize_name x) = false) :
    normalize_name (normalize_name x) = normalize_name x :=
  normalize_name_idem_of x h1 h2

theorem normalize_name_idempotent_amended_witness :
    pyStrip (normalize_name "20240101_init.sql".data) =
        normalize_name "20240101_init.sql".data ∧
      (".sql".data).isSuffixOf (normalize_name "20240101_init.sql".data) = false ∧
      normalize_name (normalize_name "20240101_init.sql".data) =
        normalize_name "20240101_init.sql".data :=
  ⟨by decide, by decide,
    normalize_name_idempotent_amended "20240101_init.sql".data (by decide) (by decide)⟩

/-- C3 (corrected, counterexample): normalize_stem does not equal the
literal specification recipe (substring after the last '/', then one
trailing ".sql" stripped, and nothing else): the code also trims
whitespace first, which differs on a name with a leading space. -/
theorem normalize_name_behavior_counterexample :
    normalize_name " 20240101_init.sql".data ≠
      specNormalizeNoTrim " 20240101_init.sql".data := by decide

/-- C3 (corrected, amended): for every string x, normalize_stem(x) equals
the result of trimming leading and trailing whitespace, then taking the
substring after the last '/', then stripping exactly one trailing ".sql";
the function is total. -/
theorem normalize_name_behavior_amended (x : PyStr) :
    normalize_name x = specNormalizeTrimmed x :=
  normalize_name_eq_trimmed x

/-! Free-text matching: TOKEN_SPLIT_RE tokenization and the whole-token
regex search of collect_applied_stems. -/

/-- A character the tokenizer TOKEN_SPLIT_RE splits on: whitespace plus
the separators , ; : " ' braces brackets parentheses. -/
def isSepChar (c : Char) : Bool :=
  isPySpace c || c == ',' || c == ';' || c == ':' || c == '"' || c == '\'' ||
  c == '{' || c == '}' || c == '[' || c == ']' || c == '(' || c == ')'

/-- Helper of token_candidates: the current token is accumulated in
reverse; empty tokens are skipped, as in the source's `if token:` guard. -/
def tokensAux : List Char → List Char → List PyStr
  | [], acc => if acc.isEmpty then [] else [acc.reverse]
  | c :: rest, acc =>
    if isSepChar c then
      if acc.isEmpty then tokensAux rest [] else acc.reverse :: tokensAux rest []
    else tokensAux rest (c :: acc)

/-- Source token_candidates: the maximal runs of non-separator characters
of the text, in order. -/
def token_candidates (text : PyStr) : List PyStr :=
  tokensAux text []

example : token_candidates "a, b;;c".data = ["a".data, "b".data, "c".data] := by decide
example : token_candidates "  ".data = [] := by decide

/-- A word character of the regex boundary classes [A-Za-z0-9_-]. -/
def isWordChar (c : Char) : Bool :=
  c.isAlpha || c.isDigit || c == '_' || c == '-'

/-- The negative look-around of the stem regex: satisfied when there is no
adjacent character, or the adjacent character is not a word character. -/
def boundaryOk : Option Char → Bool
  | none => true
  | some c => !isWordChar c

/-- One candidate position of re.search for the pattern
(?<![A-Za-z0-9_-])stem(?:\.sql)?(?![A-Za-z0-9_-]): prev is the character
just before the position, t the remaining text from the position on. -/
def matchHere (stem : PyStr) (prev : Option Char) (t : PyStr) : Bool :=
  stem.isPrefixOf t && boundaryOk prev &&
  (boundaryOk (t.drop stem.length).head? ||
   ((".sql".data).isPrefixOf (t.drop stem.length) &&
    boundaryOk ((t.drop stem.length).drop 4).head?))

/-- Scan of all positions of the text, carrying the previous character. -/
def searchAux (stem : PyStr) : Option Char → PyStr → Bool
  | prev, [] => matchHere stem prev []
  | prev, c :: rest => matchHere stem prev (c :: rest) || searchAux stem (some c) rest

/-- Model of re.search with the whole-token stem pattern of the source's
free-text branch. -/
def searchWholeToken (stem t : PyStr) : Bool :=
  searchAux stem none t

example : searchWholeToken "20240101_init".data "ran 20240101_init.sql fine".data = true := by decide
example : searchWholeToken "2024".data "x20240101".data = false := by decide
example : searchWholeToken "2024".data "applied 2024 now".data = true := by decide

/-- Declarative reading of the optional ".sql" suffix boundary: the text
after the stem either starts with a non-word character (or is empty), or
starts with ".sql" followed by a non-word character (or nothing). -/
def SuffixBoundary (suf : PyStr) : Prop :=
  (∀ c, suf.head? = some c → isWordChar c = false) ∨
  (∃ suf2, suf = ".sql".data ++ suf2 ∧ ∀ c, suf2.head? = some c → isWordChar c = false)

/-- Declarative whole-token occurrence: the stem occurs in the text not
immediately preceded by a word character and not immediately followed by
one (allowing one literal ".sql" in between). -/
def WholeTokenMatch (stem t : PyStr) : Prop :=
  ∃ pre suf, t = pre ++ stem ++ suf ∧
    (∀ c, pre.getLast? = some c → isWordChar c = false) ∧
    SuffixBoundary suf

/-! The JSON value model.  Python dicts are key ordered association
lists (JFields); duplicate keys cannot arise from json.loads because the
parser below keeps only the last value of a repeated key, as dict does. -/

mutual
inductive J where
  | obj (fields : JFields)
  | arr (elems : JList)
  | str (s : List Char)
  | num
  | bool (b : Bool)
  | null

inductive JList where
  | nil
  | cons (hd : J) (tl : JList)

inductive JFields where
  | nil
  | cons (key : List Char) (value : J) (tl : JFields)
end

/-- The elements of a JSON array, as a Lean list. -/
def JList.toList : JList → List J
  | .nil => []
  | .cons h t => h :: t.toList

/-- The values of a JSON object, in order; the traversal of the source
pushes exactly these on its stack. -/
def JFields.values : JFields → List J
  | .nil => []
  | .cons _ v t => v :: t.values

/-- Whether the object has a field with the given key. -/
def JFields.hasKey : JFields → List Char → Bool
  | .nil, _ => false
  | .cons k _ t, key => k == key || t.hasKey key

mutual
/-- Size measure of a JSON value; string content counts, so that a parsed
embedded payload is always strictly smaller than the string it came from.
Used only to pick a sufficient fuel for the traversal loop. -/
def weight : J → Nat
  | .obj fs => 1 + weightFields fs
  | .arr xs => 1 + weightList xs
  | .str s => s.length + 2
  | .num => 1
  | .bool _ => 1
  | .null => 1

def weightList : JList → Nat
  | .nil => 0
  | .cons x xs => weight x + weightList xs

def weightFields : JFields → Nat
  | .nil => 0
  | .cons k v fs => k.length + weight v + weightFields fs
end

example : weight (J.arr (JList.cons J.null JList.nil)) = 2 := by rfl
example : weight (J.str "ab".data) = 4 := by decide

/-! An executable model of json.loads, used by collect_applied_stems on
string nodes that begin with a brace or bracket.  The parser is fuelled;
parseJson passes the input length plus one, which is enough because every
recursive descent first consumes at least one character.  Surrogate
escape pairs and the distinction among numeric values are outside the
fragment the detector inspects: every number parses to J.num. -/

/-- JSON whitespace skipped between tokens. -/
def isJsonWs (c : Char) : Bool :=
  c == ' ' || c == '\t' || c == '\n' || c == '\r'

/-- Skip JSON whitespace. -/
def skipWs (cs : List Char) : List Char :=
  cs.dropWhile isJsonWs

/-- Hexadecimal digit used by a \u escape. -/
def isHexDigitChar (c : Char) : Bool :=
  c.isDigit || (decide (97 ≤ c.toNat) && decide (c.toNat ≤ 102)) ||
    (decide (65 ≤ c.toNat) && decide (c.toNat ≤ 70))

/-- Value of a hexadecimal digit. -/
def hexVal (c : Char) : Nat :=
  if c.isDigit then c.toNat - 48
  else if decide (97 ≤ c.toNat) then c.toNat - 87
  else c.toNat - 55

/-- The single-character string escapes of JSON. -/
def escChar (e : Char) : Option Char :=
  if e == '"' then some '"'
  else if e == '\\' then some '\\'
  else if e == '/' then some '/'
  else if e == 'b' then some '\x08'
  else if e == 'f' then some '\x0c'
  else if e == 'n' then some '\n'
  else if e == 'r' then some '\r'
  else if e == 't' then some '\t'
  else none

/-- Parse the body of a JSON string literal, after the opening quote,
up to and including the closing quote.  Characters below 0x20 are
rejected, escapes are decoded (a \u escape denoting an invalid scalar
value degrades to the default character, a model boundary irrelevant to
the migration payloads). -/
def parseStringBody : List Char → Option (List Char × List Char)
  | [] => none
  | c :: rest =>
    if c == '"' then some ([], rest)
    else if c == '\\' then
      match rest with
      | [] => none
      | e :: rest2 =>
        if e == 'u' then
          match rest2 with
          | a :: b :: c2 :: d :: rest3 =>
            if isHexDigitChar a && isHexDigitChar b && isHexDigitChar c2 && isHexDigitChar d then
              match parseStringBody rest3 with
              | some (s, r) =>
                some (Char.ofNat (((hexVal a * 16 + hexVal b) * 16 + hexVal c2) * 16 + hexVal d) :: s, r)
              | none => none
            else none
          | _ => none
        else
          match escChar e with
          | some ch =>
            match parseStringBody rest2 with
            | some (s, r) => some (ch :: s, r)
            | none => none
          | none => none
    else if decide (c.toNat < 32) then none
    else
      match parseStringBody rest with
      | some (s, r) => some (c :: s, r)
      | none => none

/-- One or more decimal digits; consumes the maximal run. -/
def digits1 : List Char → Option (List Char)
  | c :: rest => if c.isDigit then some (rest.dropWhile Char.isDigit) else none
  | [] => none

/-- The integer part of a JSON number: a lone 0 or a nonzero-led digit
run (json.loads rejects leading zeros by not consuming past them). -/
def parseIntPart : List Char → Option (List Char)
  | '0' :: rest => some rest
  | c :: rest => if c.isDigit then some (rest.dropWhile Char.isDigit) else none
  | [] => none

/-- Optional fraction part. -/
def parseFrac : List Char → Option (List Char)
  | '.' :: r => digits1 r
  | cs => some cs

/-- Optional exponent part. -/
def parseExp : List Char → Option (List Char)
  | c :: r =>
    if c == 'e' || c == 'E' then
      match r with
      | s :: r2 => if s == '+' || s == '-' then digits1 r2 else digits1 (s :: r2)
      | [] => none
    else some (c :: r)
  | [] => some []

/-- A JSON number after an optional leading minus sign was handled. -/
def parseNumberRest (cs : List Char) : Option (List Char) :=
  match parseIntPart cs with
  | some cs1 =>
    match parseFrac cs1 with
    | some cs2 => parseExp cs2
    | none => none
  | none => none

/-- Python dict semantics for repeated keys of a JSON object: only the
last value of a key survives. -/
def dedupKeysKeepLast : JFields → JFields
  | .nil => .nil
  | .cons k v fs =>
    if fs.hasKey k then dedupKeysKeepLast fs
    else .cons k v (dedupKeysKeepLast fs)

mutual
/-- Parse one JSON value (with leading whitespace), fuelled. -/
def parseValue : Nat → List Char → Option (J × List Char)
  | 0, _ => none
  | fuel + 1, cs =>
    match skipWs cs with
    | [] => none
    | c :: rest =>
      if c == '{' then
        match skipWs rest with
        | '}' :: rest2 => some (J.obj JFields.nil, rest2)
        | cs2 =>
          match parseMembers fuel cs2 with
          | some (fs, rest2) => some (J.obj (dedupKeysKeepLast fs), rest2)
          | none => none
      else if c == '[' then
        match skipWs rest with
        | ']' :: rest2 => some (J.arr JList.nil, rest2)
        | cs2 =>
          match parseElems fuel cs2 with
          | some (xs, rest2) => some (J.arr xs, rest2)
          | none => none
      else if c == '"' then
        match parseStringBody rest with
        | some (s, rest2) => some (J.str s, rest2)
        | none => none
      else if c == '-' then
        if ("Infinity".data).isPrefixOf rest then some (J.num, rest.drop 8)
        else
          match parseNumberRest rest with
          | some rest2 => some (J.num, rest2)
          | none => none
      else if c.isDigit then
        match parseNumberRest (c :: rest) with
        | some rest2 => some (J.num, rest2)
        | none => none
      else if c == 't' then
        if ("rue".data).isPrefixOf rest then some (J.bool true, rest.drop 3) else none
      else if c == 'f' then
        if ("alse".data).isPrefixOf rest then some (J.bool false, rest.drop 4) else none
      else if c == 'n' then
        if ("ull".data).isPrefixOf rest then some (J.null, rest.drop 3) else none
      else if c == 'N' then
        if ("aN".data).isPrefixOf rest then some (J.num, rest.drop 2) else none
      else if c == 'I' then
        if ("nfinity".data).isPrefixOf rest then some (J.num, rest.drop 7) else none
      else none

/-- Parse the members of an object after its opening brace and any
whitespace, up to and including the closing brace; the input starts at a
key quote. -/
def parseMembers : Nat → List Char → Option (JFields × List Char)
  | 0, _ => none
  | fuel + 1, cs =>
    match cs with
    | '"' :: rest =>
      match parseStringBody rest with
      | some (k, rest1) =>
        match skipWs rest1 with
        | ':' :: rest2 =>
          match parseValue fuel rest2 with
          | some (v, rest3) =>
            match skipWs rest3 with
            | ',' :: rest4 =>
              match parseMembers fuel (skipWs rest4) with
              | some (fs, rest5) => some (JFields.cons k v fs, rest5)
              | none => none
            | '}' :: rest4 => some (JFields.cons k v JFields.nil, rest4)
            | _ => none
          | none => none
        | _ => none
      | none => none
    | _ => none

/-- Parse the elements of an array after its opening bracket, up to and
including the closing bracket. -/
def parseElems : Nat → List Char → Option (JList × List Char)
  | 0, _ => none
  | fuel + 1, cs =>
    match parseValue fuel cs with
    | some (v, rest1) =>
      match skipWs rest1 with
      | ',' :: rest2 =>
        match parseElems fuel rest2 with
        | some (xs, rest3) => some (JList.cons v xs, rest3)
        | none => none
      | ']' :: rest2 => some (JList.cons v JList.nil, rest2)
      | _ => none
    | none => none
end

/-- Model of json.loads: a whole-input parse of one JSON document. -/
def parseJson (s : List Char) : Option J :=
  match parseValue (s.length + 1) s with
  | some (j, rest) =>
    match skipWs rest with
    | [] => some j
    | _ => none
  | none => none

example : parseJson "[1, 2]".data =
    some (J.arr (JList.cons J.num (JList.cons J.num JList.nil))) := by rfl
example : parseJson "\x7b\"version\": \"20240101\"\x7d".data =
    some (J.obj (JFields.cons "version".data (J.str "20240101".data) JFields.nil)) := by rfl
example : parseJson "not json".data = none := by rfl
example : parseJson "\x7b\"a\": 1".data = none := by rfl
example : parseJson " \"x\" ".data = some (J.str "x".data) := by rfl

/-! The traversal of collect_applied_stems.  The source keeps a mutable
set `applied` and an explicit stack; the model returns the list of stems
added (possibly with repeats — the set is its membership), and is fuelled
by the weight of the payload plus one, which bounds the number of loop
iterations because every iteration strictly decreases the total weight of
the stack. -/

/-- KEY_CANDIDATES of the source. -/
def KEY_CANDIDATES : List PyStr :=
  ["name".data, "migration_name".data, "version".data, "id".data]

/-- The dict branch of the loop: for each field whose key is one of the
recognized identifier keys and whose value is a string, the normalized
value when it is a local stem. -/
def keyHits (stems : List PyStr) : JFields → List PyStr
  | .nil => []
  | .cons k v fs =>
    (if k ∈ KEY_CANDIDATES then
      match v with
      | J.str sv => if normalize_name sv ∈ stems then [normalize_name sv] else []
      | _ => []
     else []) ++ keyHits stems fs

/-- Whether the stripped string starts with a brace or bracket, the
condition under which the source tries json.loads on it. -/
def startsBrace : PyStr → Bool
  | '{' :: _ => true
  | '[' :: _ => true
  | _ => false

/-- The free-text branch of the loop on an already stripped string: the
tokenized matches followed by the whole-token regex matches. -/
def collectText (stems : List PyStr) (stripped : PyStr) : List PyStr :=
  ((token_candidates stripped).map normalize_name).filter (fun t => decide (t ∈ stems)) ++
  stems.filter (fun stem => searchWholeToken stem stripped)

/-- The while-stack loop of collect_applied_stems.  Stack order differs
from the source only in which node is visited first; the resulting set of
stems is identical since additions are independent of visit order. -/
def collectGo (stems : List PyStr) : Nat → List J → List PyStr
  | 0, _ => []
  | _ + 1, [] => []
  | fuel + 1, node :: rest =>
    match node with
    | J.obj fields => keyHits stems fields ++ collectGo stems fuel (fields.values ++ rest)
    | J.arr xs => collectGo stems fuel (xs.toList ++ rest)
    | J.str s =>
      if startsBrace (pyStrip s) then
        match parseJson (pyStrip s) with
        | some j => collectGo stems fuel (j :: rest)
        | none => collectText stems (pyStrip s) ++ collectGo stems fuel rest
      else collectText stems (pyStrip s) ++ collectGo stems fuel rest
    | _ => collectGo stems fuel rest

/-- Source collect_applied_stems: the applied-stem set (as a list whose
membership is the set). -/
def collect_applied_stems (payload : J) (local_stems : List PyStr) : List PyStr :=
  collectGo local_stems (weight payload + 1) [payload]

example :
    (collect_applied_stems
      (J.arr (JList.cons (J.obj (JFields.cons "version".data (J.str "20240101".data) JFields.nil)) JList.nil))
      ["20240101".data, "20240102_add_users".data]).dedup = ["20240101".data] := by decide

/-! The filesystem boundary and the reconciliation of main. -/

/-- A directory entry: its name and whether it is a regular file. -/
structure DirEntry where
  name : PyStr
  isFile : Bool
deriving DecidableEq

/-- The state of the migrations path: absent, present but not a
directory, or a directory with entries. -/
inductive DirState where
  | missing
  | notDir
  | dir (entries : List DirEntry)
deriving DecidableEq

/-- The failure kinds of the error taxonomy.  The source raises
RuntimeError with a distinct message for each condition; the spec names
them NotFoundError, NotADirectoryError, EmptyResultError and
MalformedInputError, modelled here as distinct constructors. -/
inductive PyError where
  | NotFoundError
  | NotADirectoryError
  | EmptyResultError
  | MalformedInputError
deriving DecidableEq

/-- Lexicographic comparison of strings by code point, the order of
Python's sorted on str. -/
def pyStrLe : PyStr → PyStr → Bool
  | [], _ => true
  | _ :: _, [] => false
  | a :: as, b :: bs =>
    if a.toNat < b.toNat then true
    else if b.toNat < a.toNat then false
    else pyStrLe as bs

/-- Insert into a sorted list, keeping it sorted. -/
def insertSorted (x : PyStr) : List PyStr → List PyStr
  | [] => [x]
  | y :: ys => if pyStrLe x y then x :: y :: ys else y :: insertSorted x ys

/-- Model of Python sorted on a list of strings.  Since pyStrLe is a
total order that is antisymmetric, the sorted permutation is unique, so
any correct sort models sorted exactly. -/
def sortStrings : List PyStr → List PyStr
  | [] => []
  | x :: xs => insertSorted x (sortStrings xs)

example : sortStrings ["b".data, "a".data, "ab".data] = ["a".data, "ab".data, "b".data] := by decide

/-- Source iter_local_files: fails on a missing path or a non-directory;
otherwise the sorted names of the regular-file entries matching
MIGRATION_FILE_RE, failing when there are none. -/
def iter_local_files : DirState → Except PyError (List PyStr)
  | .missing => .error .NotFoundError
  | .notDir => .error .NotADirectoryError
  | .dir entries =>
    let files := sortStrings ((entries.filter (fun e => e.isFile && matchesMigrationRe e.name)).map DirEntry.name)
    if files = [] then .error .EmptyResultError else .ok files

/-- The outcome of a successful run of main's reconciliation. -/
structure ReconcileResult where
  localFiles : List PyStr
  appliedStems : List PyStr
  pending : List PyStr
deriving DecidableEq

/-- The reconciliation of main, taking the payload already parsed (the
load_json step fails independently of this logic and is modelled by the
caller handing a payload or not). -/
def reconcile (d : DirState) (payload : J) : Except PyError ReconcileResult :=
  match iter_local_files d with
  | .error e => .error e
  | .ok local_files =>
    let local_stems := local_files.map normalize_name
    let applied := collect_applied_stems payload local_stems
    .ok { localFiles := local_files
          appliedStems := applied
          pending := local_files.filter (fun n => !(decide (normalize_name n ∈ applied))) }

/-- The pending list of a successful reconciliation. -/
def pendingResult (d : DirState) (payload : J) : Option (List PyStr) :=
  match reconcile d payload with
  | .ok r => some r.pending
  | .error _ => none

/-- Python "\n".join. -/
def joinNL : List PyStr → PyStr
  | [] => []
  | [p] => p
  | p :: ps => p ++ '\n' :: joinNL ps

/-- Source write_pending_output: the exact contents written to the
pending-out file; joinNL pending is the text, and a final newline is
appended exactly when the text is non-empty. -/
def write_pending_output (pending : List PyStr) : PyStr :=
  if joinNL pending = [] then joinNL pending else joinNL pending ++ ['\n']

-- Sanity check of the whole model: a report naming one of two local
-- migrations under a recognized key leaves exactly the other pending.
-- (The specification's Scenario A, where the reported version "20240101"
-- is a bare prefix of the stem "20240101_init", matches nothing in the
-- code: both the key branch and the free-text branch compare whole
-- stems.  No claim depends on that scenario.)
example :
    pendingResult
      (DirState.dir [⟨"20240101_init.sql".data, true⟩, ⟨"20240102_add_users.sql".data, true⟩])
      (J.arr (JList.cons (J.obj (JFields.cons "version".data (J.str "20240101".data) JFields.nil)) JList.nil))
      = some ["20240101_init.sql".data, "20240102_add_users.sql".data] := by decide

example :
    pendingResult
      (DirState.dir [⟨"20240101_init.sql".data, true⟩, ⟨"20240102_add_users.sql".data, true⟩])
      (J.arr (JList.cons (J.obj (JFields.cons "version".data (J.str "20240101_init".data) JFields.nil)) JList.nil))
      = some ["20240102_add_users.sql".data] := by decide

/-! Order lemmas for the sorted directory listing. -/

/-- Sortedness in the code-point lexicographic order of Python sorted. -/
def StrSorted (l : List PyStr) : Prop :=
  l.Pairwise (fun a b => pyStrLe a b = true)

theorem pyStrLe_total : ∀ a b : PyStr, pyStrLe a b = true ∨ pyStrLe b a = true := by
  intro a
  induction a with
  | nil => intro b; left; rfl
  | cons x as ih =>
    intro b
    cases b with
    | nil => right; rfl
    | cons y bs =>
      simp only [pyStrLe]
      rcases Nat.lt_trichotomy x.toNat y.toNat with h | h | h
      · left; rw [if_pos h]
      · rw [if_neg (by omega), if_neg (by omega), if_neg (by omega), if_neg (by omega)]
        exact ih bs
      · right; rw [if_pos h]

theorem pyStrLe_trans :
    ∀ a b c : PyStr, pyStrLe a b = true → pyStrLe b c = true → pyStrLe a c = true := by
  intro a
  induction a with
  | nil => intro b c _ _; rfl
  | cons x as ih =>
    intro b c hab hbc
    match b, c with
    | [], _ => simp [pyStrLe] at hab
    | _ :: _, [] => simp [pyStrLe] at hbc
    | y :: bs, z :: cs =>
      simp only [pyStrLe] at hab hbc ⊢
      rcases Nat.lt_trichotomy x.toNat y.toNat with h₁ | h₁ | h₁
      · rcases Nat.lt_trichotomy y.toNat z.toNat with h₂ | h₂ | h₂
        · rw [if_pos (by omega)]
        · rw [if_pos (by omega)]
        · rw [if_neg (by omega), if_pos h₂] at hbc; simp at hbc
      · rcases Nat.lt_trichotomy y.toNat z.toNat with h₂ | h₂ | h₂
        · rw [if_pos (by omega)]
        · rw [if_neg (show ¬x.toNat < y.toNat by omega),
            if_neg (show ¬y.toNat < x.toNat by omega)] at hab
          rw [if_neg (show ¬y.toNat < z.toNat by omega),
            if_neg (show ¬z.toNat < y.toNat by omega)] at hbc
          rw [if_neg (show ¬x.toNat < z.toNat by omega),
            if_neg (show ¬z.toNat < x.toNat by omega)]
          exact ih bs cs hab hbc
        · rw [if_neg (by omega), if_pos h₂] at hbc; simp at hbc
      · rw [if_neg (by omega), if_pos h₁] at hab; simp at hab

theorem insertSorted_perm (x : PyStr) (l : List PyStr) :
    (insertSorted x l).Perm (x :: l) := by
  induction l with
  | nil => exact List.Perm.refl _
  | cons y ys ih =>
    simp only [insertSorted]
    by_cases h : pyStrLe x y = true
    · rw [if_pos h]
    · rw [if_neg h]
      exact (List.Perm.cons y ih).trans (List.Perm.swap x y ys)

theorem sortStrings_perm (l : List PyStr) : (sortStrings l).Perm l := by
  induction l with
  | nil => exact List.Perm.refl _
  | cons x xs ih =>
    exact (insertSorted_perm x (sortStrings xs)).trans (List.Perm.cons x ih)

theorem insertSorted_pairwise {x : PyStr} {l : List PyStr}
    (h : StrSorted l) : StrSorted (insertSorted x l) := by
  induction l with
  | nil => simp [insertSorted, StrSorted]
  | cons y ys ih =>
    rcases List.pairwise_cons.mp h with ⟨hy, hys⟩
    simp only [insertSorted]
    by_cases hxy : pyStrLe x y = true
    · rw [if_pos hxy]
      refine List.pairwise_cons.mpr ⟨?_, h⟩
      intro z hz
      rcases List.mem_cons.mp hz with rfl | hz
      · exact hxy
      · exact pyStrLe_trans x y z hxy (hy z hz)
    · rw [if_neg hxy]
      refine List.pairwise_cons.mpr ⟨?_, ih hys⟩
      intro z hz
      rcases (insertSorted_perm x ys).mem_iff.mp hz with hz2
      rcases List.mem_cons.mp hz2 with rfl | hz3
      · rcases pyStrLe_total z y with hyz | hyz
        · exact absurd hyz hxy
        · exact hyz
      · exact hy z hz3

theorem sortStrings_pairwise (l : List PyStr) : StrSorted (sortStrings l) := by
  induction l with
  | nil => exact List.Pairwise.nil
  | cons x xs ih => exact insertSorted_pairwise ih

theorem sortStrings_eq_nil {l : List PyStr} : sortStrings l = [] ↔ l = [] := by
  constructor
  · intro h
    have := (sortStrings_perm l).length_eq
    rw [h] at this
    exact List.length_eq_zero.mp this.symm
  · rintro rfl; rfl

theorem mem_sortStrings {l : List PyStr} {x : PyStr} :
    x ∈ sortStrings l ↔ x ∈ l :=
  (sortStrings_perm l).mem_iff

/-! Every stem the traversal ever adds passes a membership test against
the candidate set, so the result is a subset of the candidates. -/

theorem keyHits_subset (stems : List PyStr) :
    ∀ (fs : JFields) (x : PyStr), x ∈ keyHits stems fs → x ∈ stems
  | .nil, x, h => by simp [keyHits] at h
  | .cons k v t, x, h => by
    simp only [keyHits] at h
    rcases List.mem_append.mp h with h | h
    · by_cases hk : k ∈ KEY_CANDIDATES
      · rw [if_pos hk] at h
        split at h
        · split at h
          · rename_i hs
            rcases List.mem_singleton.mp h with rfl
            exact hs
          · simp at h
        · simp at h
      · rw [if_neg hk] at h; simp at h
    · exact keyHits_subset stems t x h

theorem collectText_subset (stems : List PyStr) (t : PyStr) (x : PyStr)
    (h : x ∈ collectText stems t) : x ∈ stems := by
  rcases List.mem_append.mp h with h | h
  · rcases List.mem_filter.mp h with ⟨_, hx⟩
    exact of_decide_eq_true hx
  · exact (List.mem_filter.mp h).1

theorem collectGo_subset (stems : List PyStr) :
    ∀ (fuel : Nat) (stack : List J) (x : PyStr),
      x ∈ collectGo stems fuel stack → x ∈ stems := by
  intro fuel
  induction fuel with
  | zero => intro stack x h; simp [collectGo] at h
  | succ n ih =>
    intro stack x h
    match stack with
    | [] => simp [collectGo] at h
    | node :: rest =>
      cases node with
      | obj fields =>
        simp only [collectGo] at h
        rcases List.mem_append.mp h with h | h
        · exact keyHits_subset stems fields x h
        · exact ih _ x h
      | arr xs =>
        simp only [collectGo] at h
        exact ih _ x h
      | str s =>
        simp only [collectGo] at h
        by_cases hb : startsBrace (pyStrip s) = true
        · rw [if_pos hb] at h
          cases hp : parseJson (pyStrip s) with
          | some j =>
            rw [hp] at h
            exact ih _ x h
          | none =>
            rw [hp] at h
            rcases List.mem_append.mp h with h | h
            · exact collectText_subset stems _ x h
            · exact ih _ x h
        · rw [if_neg hb] at h
          rcases List.mem_append.mp h with h | h
          · exact collectText_subset stems _ x h
          · exact ih _ x h
      | num => simp only [collectGo] at h; exact ih _ x h
      | bool b => simp only [collectGo] at h; exact ih _ x h
      | null => simp only [collectGo] at h; exact ih _ x h

theorem collect_subset (payload : J) (stems : List PyStr) (x : PyStr)
    (h : x ∈ collect_applied_stems payload stems) : x ∈ stems :=
  collectGo_subset stems _ _ x h

/-! Elimination lemmas for the success path of the reconciliation. -/

theorem iter_ok_parts {d : DirState} {files : List PyStr}
    (h : iter_local_files d = .ok files) :
    ∃ entries, d = .dir entries ∧
      files = sortStrings
        ((entries.filter (fun e => e.isFile && matchesMigrationRe e.name)).map DirEntry.name) ∧
      files ≠ [] := by
  cases d with
  | missing => simp [iter_local_files] at h
  | notDir => simp [iter_local_files] at h
  | dir entries =>
    refine ⟨entries, rfl, ?_⟩
    simp only [iter_local_files] at h
    split at h
    · simp at h
    · rename_i hne
      rcases Except.ok.inj h with rfl
      exact ⟨rfl, hne⟩

theorem reconcile_ok_parts {d : DirState} {payload : J} {r : ReconcileResult}
    (h : reconcile d payload = .ok r) :
    iter_local_files d = .ok r.localFiles ∧
    r.appliedStems = collect_applied_stems payload (r.localFiles.map normalize_name) ∧
    r.pending = r.localFiles.filter (fun n => !(decide (normalize_name n ∈ r.appliedStems))) := by
  unfold reconcile at h
  cases hiter : iter_local_files d with
  | error e => rw [hiter] at h; simp at h
  | ok files =>
    rw [hiter] at h
    simp only [Except.ok.injEq] at h
    subst h
    exact ⟨rfl, rfl, rfl⟩

/-- C1 (confirmed): for a non-empty local migration set L of
pattern-matching filenames and any JSON report, reconciliation succeeds
and its pending list is exactly the filter of L, taken in L's lexically
sorted order, of the names whose stem is not applied; pending is a
subsequence of the sorted listing, a subset of L, and each local file is
pending exactly when its stem is not applied. -/
theorem pending_is_sorted_subsequence (L : List PyStr) (payload : J)
    (hne : L ≠ []) (hpat : ∀ f ∈ L, matchesMigrationRe f = true) :
    ∃ r, reconcile (DirState.dir (L.map fun n => ⟨n, true⟩)) payload = Except.ok r ∧
      r.localFiles = sortStrings L ∧
      StrSorted r.localFiles ∧
      r.localFiles.Perm L ∧
      r.pending = r.localFiles.filter
        (fun n => !(decide (normalize_name n ∈ r.appliedStems))) ∧
      r.pending.Sublist r.localFiles ∧
      (∀ f ∈ r.pending, f ∈ L) ∧
      (∀ f ∈ L, (f ∈ r.pending ↔ normalize_name f ∉ r.appliedStems)) := by
  have hfilter : (L.map fun n => DirEntry.mk n true).filter
      (fun e => e.isFile && matchesMigrationRe e.name) = L.map fun n => DirEntry.mk n true := by
    apply List.filter_eq_self.mpr
    intro e he
    rcases List.mem_map.mp he with ⟨n, hn, rfl⟩
    simp [hpat n hn]
  have hnames : (L.map fun n => DirEntry.mk n true).map DirEntry.name = L := by
    have hfun : (DirEntry.name ∘ fun n => DirEntry.mk n true) = fun n : PyStr => n := rfl
    rw [List.map_map, hfun, List.map_id']
  have hsortne : sortStrings L ≠ [] := fun h => hne (sortStrings_eq_nil.mp h)
  have hiter : iter_local_files (.dir (L.map fun n => DirEntry.mk n true)) =
      .ok (sortStrings L) := by
    simp only [iter_local_files, hfilter, hnames]
    rw [if_neg hsortne]
  refine ⟨{ localFiles := sortStrings L,
            appliedStems := collect_applied_stems payload ((sortStrings L).map normalize_name),
            pending := (sortStrings L).filter (fun n => !(decide (normalize_name n ∈
              collect_applied_stems payload ((sortStrings L).map normalize_name)))) },
          ?_, rfl, sortStrings_pairwise L, sortStrings_perm L, rfl, List.filter_sublist _, ?_, ?_⟩
  · unfold reconcile
    rw [hiter]
  · intro f hf
    exact mem_sortStrings.mp ((List.filter_sublist _).subset hf)
  · intro f hfL
    simp only [List.mem_filter, mem_sortStrings, Bool.not_eq_true', decide_eq_false_iff_not]
    exact ⟨fun h => h.2, fun h => ⟨hfL, h⟩⟩

theorem pending_is_sorted_subsequence_witness :
    ∃ r, reconcile
        (DirState.dir ((["20240102_b.sql".data, "20240101_a.sql".data] : List PyStr).map
          fun n => ⟨n, true⟩)) J.null = Except.ok r ∧
      r.localFiles = sortStrings ["20240102_b.sql".data, "20240101_a.sql".data] ∧
      StrSorted r.localFiles ∧
      r.localFiles.Perm ["20240102_b.sql".data, "20240101_a.sql".data] ∧
      r.pending = r.localFiles.filter
        (fun n => !(decide (normalize_name n ∈ r.appliedStems))) ∧
      r.pending.Sublist r.localFiles ∧
      (∀ f ∈ r.pending, f ∈ ["20240102_b.sql".data, "20240101_a.sql".data]) ∧
      (∀ f ∈ ["20240102_b.sql".data, "20240101_a.sql".data],
        (f ∈ r.pending ↔ normalize_name f ∉ r.appliedStems)) :=
  pending_is_sorted_subsequence ["20240102_b.sql".data, "20240101_a.sql".data] J.null
    (by decide) (by decide)

/-- C4 (confirmed): listing the local migrations fails with
NotFoundError exactly on a missing directory, with NotADirectoryError
exactly on a non-directory path, with EmptyResultError exactly when no
regular-file entry matches the migration pattern; the three kinds are
distinct, and a success returns a non-empty listing (and raises
nothing). -/
theorem iter_local_files_error_taxonomy :
    (∀ d : DirState, iter_local_files d = .error .NotFoundError ↔ d = .missing) ∧
    (∀ d : DirState, iter_local_files d = .error .NotADirectoryError ↔ d = .notDir) ∧
    (∀ entries, iter_local_files (.dir entries) = .error .EmptyResultError ↔
      entries.filter (fun e => e.isFile && matchesMigrationRe e.name) = []) ∧
    (∀ (d : DirState) (files : List PyStr), iter_local_files d = .ok files →
      files ≠ [] ∧ ∃ entries, d = .dir entries) ∧
    (PyError.NotFoundError ≠ PyError.NotADirectoryError ∧
     PyError.NotFoundError ≠ PyError.EmptyResultError ∧
     PyError.NotADirectoryError ≠ PyError.EmptyResultError) := by
  refine ⟨?_, ?_, ?_, ?_, by decide⟩
  · intro d
    cases d with
    | missing => simp [iter_local_files]
    | notDir => simp [iter_local_files]
    | dir entries =>
      simp only [iter_local_files]
      split <;> simp
  · intro d
    cases d with
    | missing => simp [iter_local_files]
    | notDir => simp [iter_local_files]
    | dir entries =>
      simp only [iter_local_files]
      split <;> simp
  · intro entries
    simp only [iter_local_files]
    by_cases h : sortStrings
        ((entries.filter (fun e => e.isFile && matchesMigrationRe e.name)).map DirEntry.name) = [] 
    · rw [if_pos h]
      constructor
      · intro _
        have hm := sortStrings_eq_nil.mp h
        exact List.map_eq_nil_iff.mp hm
      · intro _; rfl
    · rw [if_neg h]
      constructor
      · intro hh; simp at hh
      · intro hfil
        exact absurd (by rw [hfil]; rfl) h
  · intro d files h
    obtain ⟨entries, rfl, _, hne⟩ := iter_ok_parts h
    exact ⟨hne, entries, rfl⟩

theorem iter_local_files_error_taxonomy_witness :
    iter_local_files (DirState.dir [⟨"1.sql".data, true⟩]) = .ok ["1.sql".data] ∧
    (["1.sql".data] : List PyStr) ≠ [] ∧
    ∃ entries, DirState.dir [⟨"1.sql".data, true⟩] = DirState.dir entries :=
  ⟨by rfl, iter_local_files_error_taxonomy.2.2.2.1 _ ["1.sql".data] (by rfl)⟩

/-- C9 (confirmed): an entry whose name matches the migration pattern but
which is not a regular file is excluded from the local listing and never
reported pending (directory names are unique, as on a file system). -/
theorem non_file_entries_excluded (entries : List DirEntry) (payload : J)
    (r : ReconcileResult) (e : DirEntry)
    (hnodup : (entries.map DirEntry.name).Nodup)
    (hrec : reconcile (.dir entries) payload = .ok r)
    (he : e ∈ entries) (hfile : e.isFile = false) :
    e.name ∉ r.localFiles ∧ e.name ∉ r.pending := by
  obtain ⟨hiter, _, hpend⟩ := reconcile_ok_parts hrec
  obtain ⟨entries2, hd, hfiles, _⟩ := iter_ok_parts hiter
  injection hd with hent
  subst hent
  have hloc : e.name ∉ r.localFiles := by
    intro hmem
    rw [hfiles] at hmem
    rcases List.mem_map.mp (mem_sortStrings.mp hmem) with ⟨e2, he2, hname⟩
    rcases List.mem_filter.mp he2 with ⟨he2ent, hpred⟩
    rw [Bool.and_eq_true] at hpred
    have hisfile : e2.isFile = true := hpred.1
    have heq : e2 = e :=
      List.inj_on_of_nodup_map hnodup he2ent he hname
    rw [heq, hfile] at hisfile
    cases hisfile
  refine ⟨hloc, fun hmem => hloc ?_⟩
  rw [hpend] at hmem
  exact (List.filter_sublist _).subset hmem

theorem non_file_entries_excluded_witness :
    "2.sql".data ∉ (["1.sql".data] : List PyStr) ∧
    "2.sql".data ∉ (["1.sql".data] : List PyStr) := by
  exact non_file_entries_excluded
    [⟨"1.sql".data, true⟩, ⟨"2.sql".data, false⟩] J.null
    { localFiles := ["1.sql".data], appliedStems := [], pending := ["1.sql".data] }
    ⟨"2.sql".data, false⟩ (by decide) (by rfl) (by decide) rfl

/-- C5 (confirmed): the applied-stem search is total — a Lean function —
and its result only contains candidate stems; an empty candidate set or
an empty or unrecognized payload (null, empty object, empty array) yields
the empty set, not an error. -/
theorem collect_applied_stems_total_subset :
    (∀ (payload : J) (stems : List PyStr) (x : PyStr),
        x ∈ collect_applied_stems payload stems → x ∈ stems) ∧
    (∀ payload : J, collect_applied_stems payload [] = []) ∧
    (∀ stems : List PyStr,
        collect_applied_stems J.null stems = [] ∧
        collect_applied_stems (J.obj JFields.nil) stems = [] ∧
        collect_applied_stems (J.arr JList.nil) stems = []) := by
  refine ⟨fun p s x h => collect_subset p s x h, ?_, fun stems => ⟨rfl, rfl, rfl⟩⟩
  intro payload
  apply List.eq_nil_iff_forall_not_mem.mpr
  intro x hx
  exact absurd (collect_subset payload [] x hx) (List.not_mem_nil x)

theorem collect_applied_stems_total_subset_witness :
    "a".data ∈ (["a".data] : List PyStr) :=
  collect_applied_stems_total_subset.1 (J.str "a".data) ["a".data] "a".data (by decide)

/-! Lemmas for the written pending file. -/

theorem joinNL_append_newline (p : PyStr) (ps : List PyStr) :
    joinNL (p :: ps) ++ ['\n'] = ((p :: ps).map (fun q => q ++ ['\n'])).flatten := by
  induction ps generalizing p with
  | nil => simp [joinNL]
  | cons q qs ih =>
    show (p ++ '\n' :: joinNL (q :: qs)) ++ ['\n'] = _
    rw [List.append_assoc, List.cons_append, ih q]
    simp

theorem write_pending_eq_flatten (pending : List PyStr)
    (hp : ∀ p ∈ pending, p ≠ []) :
    write_pending_output pending = (pending.map (fun q => q ++ ['\n'])).flatten := by
  cases pending with
  | nil => rfl
  | cons p ps =>
    unfold write_pending_output
    have hne : joinNL (p :: ps) ≠ [] := by
      cases ps with
      | nil => exact hp p (by simp)
      | cons q qs => simp [joinNL]
    rw [if_neg hne]
    exact joinNL_append_newline p ps

theorem matchesMigrationRe_ne_nil {f : PyStr} (h : matchesMigrationRe f = true) :
    f ≠ [] := by
  intro hf
  subst hf
  simp [matchesMigrationRe] at h

theorem mem_localFiles_matches {d : DirState} {files : List PyStr}
    (h : iter_local_files d = .ok files) :
    ∀ f ∈ files, matchesMigrationRe f = true := by
  obtain ⟨entries, rfl, hfiles, _⟩ := iter_ok_parts h
  intro f hf
  rw [hfiles] at hf
  rcases List.mem_map.mp (mem_sortStrings.mp hf) with ⟨e, he, rfl⟩
  rcases List.mem_filter.mp he with ⟨_, hpred⟩
  rw [Bool.and_eq_true] at hpred
  exact hpred.2

/-- C8 (confirmed): the written pending file is exactly the pending
filenames in order, one per line, each line newline-terminated; an empty
pending list writes the empty string, not a lone newline.  The general
equation holds for any list of non-empty names, and all pending names of
a successful reconciliation are non-empty. -/
theorem write_pending_output_lines :
    write_pending_output [] = [] ∧
    (∀ pending : List PyStr, (∀ p ∈ pending, p ≠ []) →
      write_pending_output pending = (pending.map (fun q => q ++ ['\n'])).flatten) ∧
    (∀ (d : DirState) (payload : J) (r : ReconcileResult),
      reconcile d payload = .ok r →
      write_pending_output r.pending = (r.pending.map (fun q => q ++ ['\n'])).flatten) := by
  refine ⟨rfl, write_pending_eq_flatten, ?_⟩
  intro d payload r hrec
  obtain ⟨hiter, _, hpend⟩ := reconcile_ok_parts hrec
  apply write_pending_eq_flatten
  intro p hp
  apply matchesMigrationRe_ne_nil (mem_localFiles_matches hiter p ?_)
  rw [hpend] at hp
  exact (List.filter_sublist _).subset hp

theorem write_pending_output_lines_witness :
    write_pending_output ["20240101_a.sql".data, "20240102_b.sql".data] =
      "20240101_a.sql\n20240102_b.sql\n".data := by
  have h := write_pending_output_lines.2.1
    ["20240101_a.sql".data, "20240102_b.sql".data] (by decide)
  rw [h]
  decide

/-- C6 (confirmed): a string node whose stripped form starts with a brace
or bracket and parses as JSON is traversed as its parsed value, not as
literal text; in particular the embedded report nested in a list yields
exactly the stem it names. -/
theorem embedded_json_string_traversal :
    (∀ (stems : List PyStr) (s : PyStr) (j : J) (rest : List J) (fuel : Nat),
      startsBrace (pyStrip s) = true →
      parseJson (pyStrip s) = some j →
      collectGo stems (fuel + 1) (J.str s :: rest) = collectGo stems fuel (j :: rest)) ∧
    (collect_applied_stems
        (J.arr (JList.cons (J.str "\x7b\"migrations\": [\"20240101_init.sql\"]\x7d".data) JList.nil))
        ["20240101_init".data]).dedup = ["20240101_init".data] := by
  constructor
  · intro stems s j rest fuel hb hp
    simp only [collectGo]
    rw [if_pos hb, hp]
  · decide

theorem embedded_json_string_traversal_witness :
    startsBrace (pyStrip "[1]".data) = true ∧
    parseJson (pyStrip "[1]".data) = some (J.arr (JList.cons J.num JList.nil)) ∧
    collectGo ["x".data] 4 [J.str "[1]".data] =
      collectGo ["x".data] 3 [J.arr (JList.cons J.num JList.nil)] :=
  ⟨rfl, rfl,
    embedded_json_string_traversal.1 ["x".data] "[1]".data
      (J.arr (JList.cons J.num JList.nil)) [] 3 rfl rfl⟩

/-! Characterization of the whole-token regex search. -/

/-- The character just before the current scan position: the last
character of the consumed text, or the carried previous character when
nothing was consumed. -/
def lastOr (prev : Option Char) (pre : PyStr) : Option Char :=
  match pre.getLast? with
  | some c => some c
  | none => prev

theorem lastOr_cons (prev : Option Char) (c : Char) (pre : PyStr) :
    lastOr prev (c :: pre) = lastOr (some c) pre := by
  cases pre with
  | nil => rfl
  | cons d pre2 =>
    unfold lastOr
    rw [List.getLast?_cons_cons, List.getLast?_eq_getLast (d :: pre2) (by simp)]

theorem matchHere_iff (stem : PyStr) (prev : Option Char) (t : PyStr) :
    matchHere stem prev t = true ↔
      boundaryOk prev = true ∧ ∃ suf, t = stem ++ suf ∧ SuffixBoundary suf := by
  unfold matchHere
  simp only [Bool.and_eq_true, Bool.or_eq_true]
  constructor
  · rintro ⟨⟨hpre, hb⟩, hsuf⟩
    refine ⟨hb, ?_⟩
    obtain ⟨suf, rfl⟩ := List.isPrefixOf_iff_prefix.mp hpre
    refine ⟨suf, rfl, ?_⟩
    rw [List.drop_left] at hsuf
    rcases hsuf with hs | ⟨hsql, hb2⟩
    · left
      intro c hc
      rw [hc] at hs
      simpa [boundaryOk, Bool.not_eq_true'] using hs
    · right
      obtain ⟨suf2, rfl⟩ := List.isPrefixOf_iff_prefix.mp hsql
      refine ⟨suf2, rfl, ?_⟩
      intro c hc
      have h4 : ((".sql".data ++ suf2).drop 4) = suf2 := List.drop_left ".sql".data suf2
      rw [h4, hc] at hb2
      simpa [boundaryOk, Bool.not_eq_true'] using hb2
  · rintro ⟨hb, suf, rfl, hs⟩
    refine ⟨⟨List.isPrefixOf_iff_prefix.mpr ⟨suf, rfl⟩, hb⟩, ?_⟩
    rw [List.drop_left]
    rcases hs with hs | ⟨suf2, rfl, hs⟩
    · left
      cases hsuf : suf.head? with
      | none => rfl
      | some c => simpa [boundaryOk, Bool.not_eq_true'] using hs c hsuf
    · right
      refine ⟨List.isPrefixOf_iff_prefix.mpr ⟨suf2, rfl⟩, ?_⟩
      have h4 : ((".sql".data ++ suf2).drop 4) = suf2 := List.drop_left ".sql".data suf2
      rw [h4]
      cases hsuf : suf2.head? with
      | none => rfl
      | some c => simpa [boundaryOk, Bool.not_eq_true'] using hs c hsuf

theorem searchAux_iff (stem : PyStr) :
    ∀ (t : PyStr) (prev : Option Char),
      searchAux stem prev t = true ↔
        ∃ pre suf, t = pre ++ stem ++ suf ∧
          boundaryOk (lastOr prev pre) = true ∧ SuffixBoundary suf := by
  intro t
  induction t with
  | nil =>
    intro prev
    rw [show searchAux stem prev [] = matchHere stem prev [] from rfl, matchHere_iff]
    constructor
    · rintro ⟨hb, suf, heq, hs⟩
      exact ⟨[], suf, by simpa using heq, hb, hs⟩
    · rintro ⟨pre, suf, heq, hb, hs⟩
      rcases List.append_eq_nil.mp heq.symm with ⟨h1, rfl⟩
      rcases List.append_eq_nil.mp h1 with ⟨rfl, h2⟩
      exact ⟨hb, [], by simp [h2], hs⟩
  | cons c rest ih =>
    intro prev
    rw [show searchAux stem prev (c :: rest) =
      (matchHere stem prev (c :: rest) || searchAux stem (some c) rest) from rfl]
    simp only [Bool.or_eq_true, matchHere_iff, ih (some c)]
    constructor
    · rintro (⟨hb, suf, heq, hs⟩ | ⟨pre, suf, heq, hb, hs⟩)
      · exact ⟨[], suf, by simpa using heq, hb, hs⟩
      · exact ⟨c :: pre, suf, by simp [heq], by rwa [lastOr_cons], hs⟩
    · rintro ⟨pre, suf, heq, hb, hs⟩
      cases pre with
      | nil =>
        left
        exact ⟨hb, suf, by simpa using heq, hs⟩
      | cons c2 pre2 =>
        right
        have hc : c = c2 ∧ rest = pre2 ++ (stem ++ suf) := by
          simpa using heq
        rcases hc with ⟨rfl, hrest⟩
        exact ⟨pre2, suf, by rw [hrest, ← List.append_assoc],
          by rwa [lastOr_cons] at hb, hs⟩

theorem boundary_lastOr_none (pre : PyStr) :
    boundaryOk (lastOr none pre) = true ↔
      ∀ c, pre.getLast? = some c → isWordChar c = false := by
  cases hl : pre.getLast? with
  | none => simp [lastOr, hl, boundaryOk]
  | some c => simp [lastOr, hl, boundaryOk, Bool.not_eq_true']

theorem searchWholeToken_iff (stem t : PyStr) :
    searchWholeToken stem t = true ↔ WholeTokenMatch stem t := by
  unfold searchWholeToken WholeTokenMatch
  rw [searchAux_iff]
  constructor
  · rintro ⟨pre, suf, h1, h2, h3⟩
    exact ⟨pre, suf, h1, (boundary_lastOr_none pre).mp h2, h3⟩
  · rintro ⟨pre, suf, h1, h2, h3⟩
    exact ⟨pre, suf, h1, (boundary_lastOr_none pre).mpr h2, h3⟩

/-- C7 (confirmed): on a free-text string, the regex rule adds a
candidate stem exactly when it occurs as a whole token — not immediately
preceded or followed by an alphanumeric, underscore or hyphen character,
optionally followed by one literal ".sql"; a stem with no such occurrence
is not added by this rule.  In scenario B the stem 20240101_init is
detected in the narrative report and pending is empty. -/
theorem free_text_whole_token_rule :
    (∀ (stems : List PyStr) (stripped stem : PyStr),
      stem ∈ stems.filter (fun st => searchWholeToken st stripped) ↔
        stem ∈ stems ∧ WholeTokenMatch stem stripped) ∧
    (∀ (stems : List PyStr) (stripped stem : PyStr),
      stem ∈ stems → WholeTokenMatch stem stripped →
        stem ∈ collectText stems stripped) ∧
    pendingResult (DirState.dir [⟨"20240101_init.sql".data, true⟩])
      (J.str "Successfully applied 20240101_init and 20240205_other".data) = some [] := by
  refine ⟨?_, ?_, by decide⟩
  · intro stems stripped stem
    rw [List.mem_filter, searchWholeToken_iff]
  · intro stems stripped stem hmem hmatch
    apply List.mem_append.mpr
    right
    rw [List.mem_filter]
    exact ⟨hmem, (searchWholeToken_iff stem stripped).mpr hmatch⟩

theorem free_text_whole_token_rule_witness :
    "20240101_init".data ∈
      collectText ["20240101_init".data] "ok 20240101_init done".data :=
  free_text_whole_token_rule.2.1 ["20240101_init".data]
    "ok 20240101_init done".data "20240101_init".data (by decide)
    ⟨"ok ".data, " done".data, by decide,
      fun c hc => by
        rw [show ("ok ".data).getLast? = some ' ' from rfl] at hc
        cases hc
        decide,
      Or.inl (fun c hc => by
        rw [show (" done".data).head? = some ' ' from rfl] at hc
        cases hc
        decide)⟩

/-! Injectivity of normalization on well-formed migration filenames. -/

/-- A well-formed migration filename: starts with a digit, ends in
".sql", and contains no path separator. -/
def validMigrationName (f : PyStr) : Bool :=
  (match f with | c :: _ => c.isDigit | [] => false) &&
  (".sql".data).isSuffixOf f && !(f.contains '/')

theorem dropWhile_eq_self_of_head {p : Char → Bool} {l : List Char}
    (h : ∀ c, l.head? = some c → p c = false) : l.dropWhile p = l := by
  cases l with
  | nil => rfl
  | cons c rest =>
    rw [List.dropWhile_cons, h c rfl]
    simp

theorem isPySpace_of_isDigit {c : Char} (h : c.isDigit = true) :
    isPySpace c = false := by
  cases hs : isPySpace c
  · rfl
  · exfalso
    simp only [isPySpace, Bool.or_eq_true, beq_iff_eq] at hs
    rcases hs with ((((rfl | rfl) | rfl) | rfl) | rfl) | rfl <;> simp [Char.isDigit] at h

theorem pyStrip_eq_self {f : PyStr}
    (h1 : ∀ c, f.head? = some c → isPySpace c = false)
    (h2 : ∀ c, f.getLast? = some c → isPySpace c = false) :
    pyStrip f = f := by
  unfold pyStrip
  rw [dropWhile_eq_self_of_head h1]
  rw [dropWhile_eq_self_of_head (by
    intro c hc
    rw [List.head?_reverse] at hc
    exact h2 c hc)]
  exact List.reverse_reverse f

theorem valid_parts {f : PyStr} (h : validMigrationName f = true) :
    (∀ c, f.head? = some c → c.isDigit = true) ∧
    (".sql".data).isSuffixOf f = true ∧ '/' ∉ f := by
  simp only [validMigrationName, Bool.and_eq_true] at h
  rcases h with ⟨⟨hd, hsuf⟩, hcon⟩
  refine ⟨?_, hsuf, ?_⟩
  · intro c hc
    cases f with
    | nil => cases hc
    | cons a rest =>
      rcases Option.some.inj hc with rfl
      exact hd
  · intro hmem
    have he : f.elem '/' = true := List.elem_iff.mpr hmem
    rw [Bool.not_eq_true'] at hcon
    rw [show f.contains '/' = f.elem '/' from rfl, he] at hcon
    cases hcon

theorem valid_append_sql {f : PyStr} (h : validMigrationName f = true) :
    normalize_name f ++ ".sql".data = f := by
  rcases valid_parts h with ⟨hd, hsuf, hns⟩
  obtain ⟨pre, rfl⟩ : ∃ pre, pre ++ ".sql".data = f := by
    rcases List.isSuffixOf_iff_suffix.mp hsuf with ⟨pre, hpre⟩
    exact ⟨pre, hpre⟩
  have hstrip : pyStrip (pre ++ ".sql".data) = pre ++ ".sql".data := by
    apply pyStrip_eq_self
    · intro c hc
      exact isPySpace_of_isDigit (hd c hc)
    · intro c hc
      rw [List.getLast?_append_of_ne_nil _ (by decide)] at hc
      rw [show (".sql".data).getLast? = some 'l' from rfl] at hc
      rcases Option.some.inj hc with rfl
      rfl
  show (if (".sql".data).isSuffixOf ((pySplit '/' (pyStrip (pre ++ ".sql".data))).getLastD [])
      then _ else _) ++ ".sql".data = _
  rw [hstrip, pySplit_getLastD, afterLastSlash_of_not_mem hns, hsuf]
  simp only [if_true]
  have hlen : (pre ++ ".sql".data).length - 4 = pre.length := by
    rw [List.length_append]
    rfl
  rw [hlen, List.take_left]

theorem filter_map_mk_names (L : List PyStr) :
    ((L.map fun n => DirEntry.mk n true).filter
      (fun e => e.isFile && matchesMigrationRe e.name)).map DirEntry.name =
      L.filter matchesMigrationRe := by
  induction L with
  | nil => rfl
  | cons a l ih =>
    simp only [List.map_cons, List.filter_cons]
    by_cases h : matchesMigrationRe a = true
    · simp [h, ih]
    · simp only [Bool.not_eq_true] at h
      simp [h, ih]

/-- C10 (confirmed): normalization is injective on well-formed migration
filenames; consequently for a duplicate-free local set the stems are
duplicate-free, the stem count equals the file count, the pending list
has no duplicate filenames, and the detected-applied count never exceeds
the local count. -/
theorem normalize_name_injective_migrations :
    (∀ f g : PyStr, validMigrationName f = true → validMigrationName g = true →
      normalize_name f = normalize_name g → f = g) ∧
    (∀ L : List PyStr, (∀ f ∈ L, validMigrationName f = true) → L.Nodup →
      ((L.map normalize_name).Nodup ∧
       (L.map normalize_name).dedup.length = L.length ∧
       (∀ (payload : J) (r : ReconcileResult),
         reconcile (DirState.dir (L.map fun n => ⟨n, true⟩)) payload = .ok r →
         r.pending.Nodup ∧
         (r.localFiles.map normalize_name).dedup.length = r.localFiles.length ∧
         r.appliedStems.dedup.length ≤ r.localFiles.length))) := by
  have hinj : ∀ f g : PyStr, validMigrationName f = true → validMigrationName g = true →
      normalize_name f = normalize_name g → f = g := by
    intro f g hf hg h
    have := valid_append_sql hf
    rw [← this, h, valid_append_sql hg]
  refine ⟨hinj, ?_⟩
  intro L hval hnodup
  have hmapnodup : (L.map normalize_name).Nodup :=
    hnodup.map_on fun x hx y hy h => hinj x y (hval x hx) (hval y hy) h
  refine ⟨hmapnodup, by rw [List.dedup_eq_self.mpr hmapnodup, List.length_map], ?_⟩
  intro payload r hrec
  obtain ⟨hiter, happ, hpend⟩ := reconcile_ok_parts hrec
  obtain ⟨entries2, hd, hfiles, _⟩ := iter_ok_parts hiter
  injection hd with hent
  subst hent
  rw [filter_map_mk_names L] at hfiles
  have hLFnodup : (L.filter matchesMigrationRe).Nodup := List.Nodup.filter _ hnodup
  have hlocnodup : r.localFiles.Nodup := by
    rw [hfiles]
    exact ((sortStrings_perm _).nodup_iff).mpr hLFnodup
  have hlocval : ∀ f ∈ r.localFiles, validMigrationName f = true := by
    intro f hf
    rw [hfiles] at hf
    exact hval f ((List.mem_filter.mp (mem_sortStrings.mp hf)).1)
  have hlocmapnodup : (r.localFiles.map normalize_name).Nodup :=
    hlocnodup.map_on fun x hx y hy h => hinj x y (hlocval x hx) (hlocval y hy) h
  refine ⟨?_, ?_, ?_⟩
  · rw [hpend]
    exact List.Nodup.filter _ hlocnodup
  · rw [List.dedup_eq_self.mpr hlocmapnodup, List.length_map]
  · have hsub : r.appliedStems.dedup ⊆ r.localFiles.map normalize_name := by
      intro x hx
      have hx2 : x ∈ r.appliedStems := List.mem_dedup.mp hx
      rw [happ] at hx2
      exact collect_subset _ _ x hx2
    have hle := (List.subperm_of_subset (List.nodup_dedup _) hsub).length_le
    calc r.appliedStems.dedup.length
        ≤ (r.localFiles.map normalize_name).length := hle
      _ = r.localFiles.length := List.length_map _ _

theorem normalize_name_injective_migrations_witness :
    (["1.sql".data, "2.sql".data] : List PyStr).Nodup ∧
    ((["1.sql".data, "2.sql".data] : List PyStr).map normalize_name).dedup.length =
      (["1.sql".data, "2.sql".data] : List PyStr).length ∧
    ([] : List PyStr).dedup.length ≤ (["1.sql".data, "2.sql".data] : List PyStr).length := by
  exact (normalize_name_injective_migrations.2 ["2.sql".data, "1.sql".data]
      (by decide) (by decide)).2.2 J.null
    { localFiles := ["1.sql".data, "2.sql".data], appliedStems := [],
      pending := ["1.sql".data, "2.sql".data] } (by rfl)

/-! Adequacy of the traversal fuel.  The loop of collect_applied_stems is
fuelled by the payload weight plus one; the lemmas below prove the fuel
choice immaterial: every embedded parse returns a value lighter than the
string it came from, each iteration strictly decreases the total stack
weight, and any two sufficient fuels compute the same result. -/

theorem skipWs_length (cs : List Char) : (skipWs cs).length ≤ cs.length :=
  (List.dropWhile_suffix isJsonWs).length_le

theorem pyStrip_length (s : PyStr) : (pyStrip s).length ≤ s.length := by
  unfold pyStrip
  rw [List.length_reverse]
  calc ((s.dropWhile isPySpace).reverse.dropWhile isPySpace).length
      ≤ (s.dropWhile isPySpace).reverse.length :=
        (List.dropWhile_suffix isPySpace).length_le
    _ = (s.dropWhile isPySpace).length := List.length_reverse _
    _ ≤ s.length := (List.dropWhile_suffix isPySpace).length_le

theorem digits1_length {cs r : List Char} (h : digits1 cs = some r) :
    r.length ≤ cs.length := by
  match cs with
  | [] => simp [digits1] at h
  | c :: rest =>
    simp only [digits1] at h
    split_ifs at h
    rcases Option.some.inj h with rfl
    calc (rest.dropWhile Char.isDigit).length
        ≤ rest.length := (List.dropWhile_suffix Char.isDigit).length_le
      _ ≤ (c :: rest).length := by simp

theorem parseIntPart_length {cs r : List Char} (h : parseIntPart cs = some r) :
    r.length ≤ cs.length := by
  unfold parseIntPart at h
  split at h
  · rcases Option.some.inj h with rfl
    simp
  · split_ifs at h
    rcases Option.some.inj h with rfl
    rename_i c rest _ _
    calc (rest.dropWhile Char.isDigit).length
        ≤ rest.length := (List.dropWhile_suffix Char.isDigit).length_le
      _ ≤ (c :: rest).length := by simp
  · simp at h

theorem parseFrac_length {cs r : List Char} (h : parseFrac cs = some r) :
    r.length ≤ cs.length := by
  unfold parseFrac at h
  split at h
  · exact le_trans (digits1_length h) (by simp)
  · rcases Option.some.inj h with rfl
    exact le_refl _

theorem parseExp_length {cs r : List Char} (h : parseExp cs = some r) :
    r.length ≤ cs.length := by
  unfold parseExp at h
  split at h
  · split_ifs at h with hc
    · split at h
      · split_ifs at h with hs
        · exact le_trans (digits1_length h) (by simp only [List.length_cons]; omega)
        · exact le_trans (digits1_length h) (by simp only [List.length_cons]; omega)
      · simp at h
    · rcases Option.some.inj h with rfl
      exact le_refl _
  · rcases Option.some.inj h with rfl
    simp

theorem parseNumberRest_length {cs r : List Char} (h : parseNumberRest cs = some r) :
    r.length ≤ cs.length := by
  unfold parseNumberRest at h
  split at h
  · rename_i cs1 heq1
    split at h
    · rename_i cs2 heq2
      exact le_trans (parseExp_length h)
        (le_trans (parseFrac_length heq2) (parseIntPart_length heq1))
    · simp at h
  · simp at h

theorem parseStringBody_bound :
    ∀ (cs : List Char) (s r : List Char), parseStringBody cs = some (s, r) →
      s.length + r.length + 1 ≤ cs.length
  | [], s, r, h => by
    rw [parseStringBody.eq_def] at h
    simp at h
  | c :: rest, s, r, h => by
    rw [parseStringBody.eq_def] at h
    simp only [] at h
    split_ifs at h with h1 h2 h3
    · simp only [Option.some.injEq, Prod.mk.injEq] at h
      rcases h with ⟨rfl, rfl⟩
      simp
    · split at h
      · simp at h
      · rename_i e rest2
        split_ifs at h with hu
        · split at h
          · rename_i a b c2 d rest3
            split_ifs at h with hhex
            split at h
            · rename_i s2 r2 heq
              simp only [Option.some.injEq, Prod.mk.injEq] at h
              rcases h with ⟨rfl, rfl⟩
              have hb := parseStringBody_bound rest3 s2 r2 heq
              simp only [List.length_cons]
              omega
            · simp at h
          · simp at h
        · split at h
          · rename_i ch hesc
            split at h
            · rename_i s2 r2 heq
              simp only [Option.some.injEq, Prod.mk.injEq] at h
              rcases h with ⟨rfl, rfl⟩
              have hb := parseStringBody_bound rest2 s2 r2 heq
              simp only [List.length_cons]
              omega
            · simp at h
          · simp at h
    · split at h
      · rename_i s2 r2 heq
        simp only [Option.some.injEq, Prod.mk.injEq] at h
        rcases h with ⟨rfl, rfl⟩
        have hb := parseStringBody_bound rest s2 r2 heq
        simp only [List.length_cons]
        omega
      · simp at h

theorem skipWs_cons_length {X Y : List Char} {c : Char} (h : skipWs X = c :: Y) :
    Y.length + 1 ≤ X.length := by
  have h2 := skipWs_length X
  rw [h] at h2
  simpa using h2

theorem weightFields_dedup_le : ∀ fs : JFields,
    weightFields (dedupKeysKeepLast fs) ≤ weightFields fs
  | .nil => le_refl _
  | .cons k v fs => by
    simp only [dedupKeysKeepLast]
    split_ifs with h
    · have := weightFields_dedup_le fs
      simp only [weightFields]
      omega
    · simp only [weightFields]
      have := weightFields_dedup_le fs
      omega


set_option maxHeartbeats 1000000 in
theorem parse_bound (fuel : Nat) :
    (∀ cs j r, parseValue fuel cs = some (j, r) → weight j + r.length ≤ cs.length + 1) ∧
    (∀ cs fs r, parseMembers fuel cs = some (fs, r) →
      weightFields fs + r.length ≤ cs.length + 1) ∧
    (∀ cs xs r, parseElems fuel cs = some (xs, r) →
      weightList xs + r.length ≤ cs.length + 1) := by
  induction fuel with
  | zero =>
    refine ⟨?_, ?_, ?_⟩ <;> intro cs a r h <;>
      simp [parseValue, parseMembers, parseElems] at h
  | succ n ih =>
    obtain ⟨ihv, ihm, ihe⟩ := ih
    refine ⟨?_, ?_, ?_⟩
    · intro cs j r h
      simp only [parseValue] at h
      split at h
      · simp at h
      · rename_i c rest heq
        have hlen : rest.length + 1 ≤ cs.length := skipWs_cons_length heq
        by_cases hbrace : (c == '{') = true
        · rw [if_pos hbrace] at h
          split at h
          · rename_i rest2 heq2
            have hlen2 : rest2.length + 1 ≤ rest.length := skipWs_cons_length heq2
            simp only [Option.some.injEq, Prod.mk.injEq] at h
            rcases h with ⟨rfl, rfl⟩
            simp only [weight, weightFields]
            omega
          · split at h
            · rename_i fs2 rest2 heq3
              simp only [Option.some.injEq, Prod.mk.injEq] at h
              rcases h with ⟨rfl, rfl⟩
              have hb := ihm _ fs2 rest2 heq3
              have hd := weightFields_dedup_le fs2
              have hsw := skipWs_length rest
              simp only [weight]
              omega
            · simp at h
        · rw [if_neg hbrace] at h
          by_cases hbrack : (c == '[') = true
          · rw [if_pos hbrack] at h
            split at h
            · rename_i rest2 heq2
              have hlen2 : rest2.length + 1 ≤ rest.length := skipWs_cons_length heq2
              simp only [Option.some.injEq, Prod.mk.injEq] at h
              rcases h with ⟨rfl, rfl⟩
              simp only [weight, weightList]
              omega
            · split at h
              · rename_i xs2 rest2 heq3
                simp only [Option.some.injEq, Prod.mk.injEq] at h
                rcases h with ⟨rfl, rfl⟩
                have hb := ihe _ xs2 rest2 heq3
                have hsw := skipWs_length rest
                simp only [weight]
                omega
              · simp at h
          · rw [if_neg hbrack] at h
            by_cases hquote : (c == '"') = true
            · rw [if_pos hquote] at h
              split at h
              · rename_i s2 rest2 heq2
                simp only [Option.some.injEq, Prod.mk.injEq] at h
                rcases h with ⟨rfl, rfl⟩
                have hb := parseStringBody_bound rest s2 rest2 heq2
                simp only [weight]
                omega
              · simp at h
            · rw [if_neg hquote] at h
              by_cases hminus : (c == '-') = true
              · rw [if_pos hminus] at h
                by_cases hinf : ("Infinity".data).isPrefixOf rest = true
                · rw [if_pos hinf] at h
                  simp only [Option.some.injEq, Prod.mk.injEq] at h
                  rcases h with ⟨rfl, rfl⟩
                  simp only [weight, List.length_drop]
                  omega
                · rw [if_neg hinf] at h
                  split at h
                  · rename_i rest2 heq2
                    simp only [Option.some.injEq, Prod.mk.injEq] at h
                    rcases h with ⟨rfl, rfl⟩
                    have hb := parseNumberRest_length heq2
                    simp only [weight]
                    omega
                  · simp at h
              · rw [if_neg hminus] at h
                by_cases hdig : c.isDigit = true
                · rw [if_pos hdig] at h
                  split at h
                  · rename_i rest2 heq2
                    simp only [Option.some.injEq, Prod.mk.injEq] at h
                    rcases h with ⟨rfl, rfl⟩
                    have hb := parseNumberRest_length heq2
                    simp only [List.length_cons] at hb
                    simp only [weight]
                    omega
                  · simp at h
                · rw [if_neg hdig] at h
                  by_cases ht : (c == 't') = true
                  · rw [if_pos ht] at h
                    by_cases hp : ("rue".data).isPrefixOf rest = true
                    · rw [if_pos hp] at h
                      simp only [Option.some.injEq, Prod.mk.injEq] at h
                      rcases h with ⟨rfl, rfl⟩
                      simp only [weight, List.length_drop]
                      omega
                    · rw [if_neg hp] at h
                      simp at h
                  · rw [if_neg ht] at h
                    by_cases hfb : (c == 'f') = true
                    · rw [if_pos hfb] at h
                      by_cases hp : ("alse".data).isPrefixOf rest = true
                      · rw [if_pos hp] at h
                        simp only [Option.some.injEq, Prod.mk.injEq] at h
                        rcases h with ⟨rfl, rfl⟩
                        simp only [weight, List.length_drop]
                        omega
                      · rw [if_neg hp] at h
                        simp at h
                    · rw [if_neg hfb] at h
                      by_cases hnb : (c == 'n') = true
                      · rw [if_pos hnb] at h
                        by_cases hp : ("ull".data).isPrefixOf rest = true
                        · rw [if_pos hp] at h
                          simp only [Option.some.injEq, Prod.mk.injEq] at h
                          rcases h with ⟨rfl, rfl⟩
                          simp only [weight, List.length_drop]
                          omega
                        · rw [if_neg hp] at h
                          simp at h
                      · rw [if_neg hnb] at h
                        by_cases hNb : (c == 'N') = true
                        · rw [if_pos hNb] at h
                          by_cases hp : ("aN".data).isPrefixOf rest = true
                          · rw [if_pos hp] at h
                            simp only [Option.some.injEq, Prod.mk.injEq] at h
                            rcases h with ⟨rfl, rfl⟩
                            simp only [weight, List.length_drop]
                            omega
                          · rw [if_neg hp] at h
                            simp at h
                        · rw [if_neg hNb] at h
                          by_cases hIb : (c == 'I') = true
                          · rw [if_pos hIb] at h
                            by_cases hp : ("nfinity".data).isPrefixOf rest = true
                            · rw [if_pos hp] at h
                              simp only [Option.some.injEq, Prod.mk.injEq] at h
                              rcases h with ⟨rfl, rfl⟩
                              simp only [weight, List.length_drop]
                              omega
                            · rw [if_neg hp] at h
                              simp at h
                          · rw [if_neg hIb] at h
                            simp at h
    · intro cs fs r h
      simp only [parseMembers] at h
      split at h
      · rename_i rest
        split at h
        · rename_i k r1 heq1
          have hb1 := parseStringBody_bound rest k r1 heq1
          split at h
          · rename_i r2 heq2
            have hlen2 : r2.length + 1 ≤ r1.length := skipWs_cons_length heq2
            split at h
            · rename_i v r3 heq3
              have hbv := ihv r2 v r3 heq3
              split at h
              · rename_i r4 heq4
                have hlen4 : r4.length + 1 ≤ r3.length := skipWs_cons_length heq4
                split at h
                · rename_i fs2 r5 heq5
                  simp only [Option.some.injEq, Prod.mk.injEq] at h
                  rcases h with ⟨rfl, rfl⟩
                  have hbm := ihm _ fs2 r5 heq5
                  have hsw := skipWs_length r4
                  simp only [weightFields, List.length_cons]
                  omega
                · simp at h
              · rename_i r4 heq4
                have hlen4 : r4.length + 1 ≤ r3.length := skipWs_cons_length heq4
                simp only [Option.some.injEq, Prod.mk.injEq] at h
                rcases h with ⟨rfl, rfl⟩
                simp only [weightFields, List.length_cons]
                omega
              · simp at h
            · simp at h
          · simp at h
        · simp at h
      · simp at h
    · intro cs xs r h
      simp only [parseElems] at h
      split at h
      · rename_i v r1 heq1
        have hbv := ihv cs v r1 heq1
        split at h
        · rename_i r2 heq2
          have hlen2 : r2.length + 1 ≤ r1.length := skipWs_cons_length heq2
          split at h
          · rename_i xs2 r3 heq3
            simp only [Option.some.injEq, Prod.mk.injEq] at h
            rcases h with ⟨rfl, rfl⟩
            have hbe := ihe r2 xs2 r3 heq3
            simp only [weightList]
            omega
          · simp at h
        · rename_i r2 heq2
          have hlen2 : r2.length + 1 ≤ r1.length := skipWs_cons_length heq2
          simp only [Option.some.injEq, Prod.mk.injEq] at h
          rcases h with ⟨rfl, rfl⟩
          simp only [weightList]
          omega
        · simp at h
      · simp at h

theorem parseJson_weight {s : PyStr} {j : J} (h : parseJson s = some j) :
    weight j ≤ s.length + 1 := by
  unfold parseJson at h
  split at h
  · rename_i j2 rest heq
    split at h
    · rcases Option.some.inj h with rfl
      have hb := (parse_bound (s.length + 1)).1 s j2 rest heq
      omega
    · simp at h
  · simp at h

/-- Total weight of the traversal stack. -/
def stackWeight : List J → Nat
  | [] => 0
  | j :: rest => weight j + stackWeight rest

theorem stackWeight_append (l1 l2 : List J) :
    stackWeight (l1 ++ l2) = stackWeight l1 + stackWeight l2 := by
  induction l1 with
  | nil => simp [stackWeight]
  | cons j l ih => simp [stackWeight, ih]; omega

theorem stackWeight_toList : ∀ xs : JList, stackWeight xs.toList = weightList xs
  | .nil => rfl
  | .cons x xs => by
    simp [JList.toList, stackWeight, weightList, stackWeight_toList xs]

theorem stackWeight_values : ∀ fs : JFields, stackWeight fs.values ≤ weightFields fs
  | .nil => le_refl _
  | .cons k v fs => by
    simp only [JFields.values, stackWeight, weightFields]
    have := stackWeight_values fs
    omega

theorem weight_pos (j : J) : 1 ≤ weight j := by
  cases j <;> simp only [weight] <;> omega

theorem collectGo_fuel_eq (stems : List PyStr) :
    ∀ (fuel1 fuel2 : Nat) (stack : List J),
      stackWeight stack < fuel1 → stackWeight stack < fuel2 →
      collectGo stems fuel1 stack = collectGo stems fuel2 stack := by
  intro fuel1
  induction fuel1 with
  | zero =>
    intro fuel2 stack h1 _
    omega
  | succ n1 ih =>
    intro fuel2 stack h1 h2
    cases stack with
    | nil =>
      cases fuel2 with
      | zero => omega
      | succ m => rfl
    | cons node rest =>
      have hw := weight_pos node
      have h0 : stackWeight (node :: rest) = weight node + stackWeight rest := rfl
      cases fuel2 with
      | zero => omega
      | succ m =>
        cases node with
        | obj fields =>
          have hvals := stackWeight_values fields
          have happ := stackWeight_append fields.values rest
          have hwobj : weight (J.obj fields) = 1 + weightFields fields := rfl
          simp only [collectGo]
          exact congrArg (fun t => keyHits stems fields ++ t)
            (ih m (fields.values ++ rest) (by omega) (by omega))
        | arr xs =>
          have htl := stackWeight_toList xs
          have happ := stackWeight_append xs.toList rest
          have hwarr : weight (J.arr xs) = 1 + weightList xs := rfl
          simp only [collectGo]
          exact ih m (xs.toList ++ rest) (by omega) (by omega)
        | str s =>
          have hwstr : weight (J.str s) = s.length + 2 := rfl
          have hps := pyStrip_length s
          simp only [collectGo]
          by_cases hb : startsBrace (pyStrip s) = true
          · rw [if_pos hb, if_pos hb]
            cases hp : parseJson (pyStrip s) with
            | some jj =>
              have hjw := parseJson_weight hp
              have hrec : stackWeight (jj :: rest) = weight jj + stackWeight rest := rfl
              exact ih m (jj :: rest) (by omega) (by omega)
            | none =>
              exact congrArg (fun t => collectText stems (pyStrip s) ++ t)
                (ih m rest (by omega) (by omega))
          · rw [if_neg hb, if_neg hb]
            exact congrArg (fun t => collectText stems (pyStrip s) ++ t)
              (ih m rest (by omega) (by omega))
        | num =>
          simp only [collectGo]
          exact ih m rest (by omega) (by omega)
        | bool b =>
          simp only [collectGo]
          exact ih m rest (by omega) (by omega)
        | null =>
          simp only [collectGo]
          exact ih m rest (by omega) (by omega)

/-- The fuel passed by collect_applied_stems is sufficient: any larger
fuel computes the same applied-stem set, so the fuelled loop is a
faithful rendering of the source's unbounded while loop. -/
theorem collect_applied_stems_fuel_adequate (payload : J) (stems : List PyStr)
    (fuel : Nat) (h : weight payload < fuel) :
    collectGo stems fuel [payload] = collect_applied_stems payload stems := by
  unfold collect_applied_stems
  apply collectGo_fuel_eq
  · have h0 : stackWeight [payload] = weight payload + 0 := rfl
    omega
  · have h0 : stackWeight [payload] = weight payload + 0 := rfl
    omega
